import Mathlib

/-!
Verification development for the result-cache and per-domain rate limiter of
the WebForAll accessibility backend (`server/analyzer/cache.py`).

The two components (`AnalysisCache`, `URLRateLimiter`) are embedded shallowly:

* The cache directory is modelled as an association list from file names
  (cache keys) to `File` records carrying the file's modification time,
  its size, and the parse outcome of its bytes.  A file's byte content is
  modelled at the JSON level: `none` stands for bytes that are not valid
  JSON (`json.loads` raises `JSONDecodeError`), `some j` for bytes parsing
  to the JSON value `j`.
* Wall-clock instants are natural numbers for the cache (the only use is
  the age comparison `now - cached_at > ttl`, whose Python semantics on
  `timedelta` agrees with truncated `Nat` subtraction for a non-negative
  TTL) and integers for the rate limiter (whose cutoff `now - window_size`
  may be negative, so `Int` arithmetic is required for faithfulness).
* Exceptions escaping a method are modelled with `Except PyErr`; every
  operation additionally returns the directory / state as it is at the
  moment the exception propagates.
-/

/-- Exceptions that can escape the embedded operations, named after the
Python exception classes that the source can raise past its handlers. -/
inductive PyErr where
  | indexError
  | typeError
  | valueError
  | fileNotFoundError
deriving DecidableEq, Repr

/-- JSON values, the parse trees produced by `json.loads` / consumed by
`json.dumps`.  Numbers are modelled as integers (the stored records never
depend on float payloads). -/
inductive JVal where
  | null
  | bool (b : Bool)
  | num (n : Int)
  | str (s : String)
  | arr (xs : List JVal)
  | obj (fields : List (String × JVal))

/-- Lookup of a key in a JSON object (`cached_data['k']` on a dict):
first matching field.  Records written by the cache have distinct keys. -/
def lookupField (k : String) : List (String × JVal) → Option JVal
  | [] => none
  | (k', v) :: rest => if k' = k then some v else lookupField k rest

/-- Serialized length of a JSON value, modelling `len(json.dumps v)` with
the default separators (`", "` and `": "`). -/
def serSize : JVal → Nat
  | .null => 4
  | .bool b => cond b 4 5
  | .num n => (toString n).length
  | .str s => s.length + 2
  | .arr xs => serSizeList xs + 2
  | .obj fs => serSizeFields fs + 2
where
  /-- Serialized length of the comma-joined elements of a JSON array. -/
  serSizeList : List JVal → Nat
    | [] => 0
    | [x] => serSize x
    | x :: y :: xs => serSize x + 2 + serSizeList (y :: xs)
  /-- Serialized length of the comma-joined fields of a JSON object. -/
  serSizeFields : List (String × JVal) → Nat
    | [] => 0
    | [(k, v)] => k.length + 4 + serSize v
    | (k, v) :: f :: fs => k.length + 4 + serSize v + 2 + serSizeFields (f :: fs)

/-- Modelling of `datetime.now().isoformat()`: ISO-8601 timestamp strings
are abstracted as an injective encoding of the instant (a unary encoding,
so that the inverse below is trivially computable).  The claims depend only
on the encoding being injective and on some strings lying outside its
image, both true of real ISO-8601 strings. -/
def isoString (t : Nat) : String := ⟨List.replicate t 'i'⟩

/-- Modelling of `datetime.fromisoformat`: inverts `isoString` and fails
(`ValueError` at the call site) on every string outside its image. -/
def fromIso (s : String) : Option Nat :=
  if s.data.all (fun c => c = 'i') then some s.data.length else none

/-- Cache file on disk: modification time, size reported by `stat`, and the
parse outcome of its bytes (`none` = not valid JSON). -/
structure File where
  mtime : Nat
  size : Nat
  content : Option JVal

/-- Cache directory: association list from file name (the cache key; the
fixed `.json` suffix is dropped since every record carries it) to file.
A real directory has pairwise distinct names, captured by `DirOk` below
where a proof needs it. -/
abbrev CacheDir := List (String × File)

/-- Lookup of the first binding of a key in an association list
(dictionary read / file-name lookup). -/
def lookupD {α : Type} (d : String) : List (String × α) → Option α
  | [] => none
  | (k, v) :: rest => if k = d then some v else lookupD d rest

/-- Replacing the first binding of a key, or appending a fresh binding
(dictionary write / file overwrite). -/
def setD {α : Type} (d : String) (v : α) : List (String × α) → List (String × α)
  | [] => [(d, v)]
  | (k, w) :: rest => if k = d then (d, v) :: rest else (k, w) :: setD d v rest

/-- Removing the first binding of a key, a no-op when absent
(`Path.unlink` with the `OSError` handler of `_remove_cache_file`). -/
def eraseD {α : Type} (d : String) : List (String × α) → List (String × α)
  | [] => []
  | (k, v) :: rest => if k = d then rest else (k, v) :: eraseD d rest

/-- Well-formedness of a directory: file names are pairwise distinct. -/
def DirOk (dir : CacheDir) : Prop := (dir.map Prod.fst).Nodup

/-- Embedding of `AnalysisCache._get_cache_key`: the SHA-256 hex digest of
the content.  The digest is modelled as an injective function of the
content (the spec idealizes it as collision-resistant); the identity
encoding realizes this, and no claim depends on more. -/
def getCacheKey (content : String) : String := content

/-- Total size of the records in the directory, as summed over
`file.stat().st_size` by `_ensure_cache_size`. -/
def totalSize (dir : CacheDir) : Nat := (dir.map (fun p => p.2.size)).sum

/-- Stable insertion of an entry into a list sorted by ascending mtime,
used to model Python's stable `list.sort(key=lambda x: x[1])`. -/
def insertByMtime (p : String × File) : List (String × File) → List (String × File)
  | [] => [p]
  | q :: rest =>
      if p.2.mtime ≤ q.2.mtime then p :: q :: rest else q :: insertByMtime p rest

/-- Sorting the directory entries by ascending modification time (oldest
first), as `cache_files.sort(key=lambda x: x[1])`. -/
def sortByMtime : List (String × File) → List (String × File)
  | [] => []
  | p :: rest => insertByMtime p (sortByMtime rest)

/-- Embedding of `AnalysisCache._remove_cache_file`: unlink with
`OSError`/`FileNotFoundError` swallowed, so removal of an absent file is a
no-op. -/
def removeCacheFile (k : String) (dir : CacheDir) : CacheDir := eraseD k dir

/-- Result of `file.stat().st_size`: the size when the file exists,
`none` (a raised `FileNotFoundError`) when it does not. -/
def statSize (k : String) (dir : CacheDir) : Option Nat :=
  (lookupD k dir).map File.size

/-- Embedding of the eviction loop of `AnalysisCache._ensure_cache_size`:
iterates over the entries sorted oldest-first, unlinks each, re-stats the
just-unlinked path to decrement the running total, and stops once the
total is within the bound.  The pair returned is (outcome, directory as
left behind, including on an escaping exception). -/
def evictLoop (maxSize : Nat) :
    List (String × File) → Nat → CacheDir → Except PyErr Unit × CacheDir
  | [], _, dir => (Except.ok (), dir)
  | (k, _) :: rest, total, dir =>
      let dir' := removeCacheFile k dir
      match statSize k dir' with
      | none => (Except.error PyErr.fileNotFoundError, dir')
      | some sz =>
          let total' := total - sz
          if total' ≤ maxSize then (Except.ok (), dir')
          else evictLoop maxSize rest total' dir'

/-- Embedding of `AnalysisCache._ensure_cache_size`: sums the stored
sizes and, when the total exceeds the bound, runs the eviction loop over
the entries sorted by ascending mtime. -/
def ensureCacheSize (maxSize : Nat) (dir : CacheDir) : Except PyErr Unit × CacheDir :=
  let total := totalSize dir
  if total > maxSize then evictLoop maxSize (sortByMtime dir) total dir
  else (Except.ok (), dir)

/-- Record written by `AnalysisCache.set`:
`{'cached_at': datetime.now().isoformat(), 'result': result}`. -/
def recordJson (now : Nat) (result : JVal) : JVal :=
  .obj [("cached_at", .str (isoString now)), ("result", result)]

/-- Embedding of `AnalysisCache.get`.  Returns the outcome (`ok` with the
cached result or `none`, or an escaping exception) together with the
directory afterwards.  The branch structure mirrors the source: a missing
file is a miss before the lock; `JSONDecodeError` and `KeyError` are
caught and self-heal by deleting the record; subscripting a non-object
(`TypeError`) and an invalid ISO string (`ValueError`/`TypeError` from
`fromisoformat`) escape uncaught; an over-age record is deleted. -/
def cacheGet (ttl : Nat) (dir : CacheDir) (now : Nat) (content : String) :
    Except PyErr (Option JVal) × CacheDir :=
  let key := getCacheKey content
  match lookupD key dir with
  | none => (Except.ok none, dir)
  | some f =>
    match f.content with
    | none => (Except.ok none, eraseD key dir)
    | some j =>
      match j with
      | .obj fields =>
        match lookupField "cached_at" fields with
        | none => (Except.ok none, eraseD key dir)
        | some v =>
          match v with
          | .str s =>
            match fromIso s with
            | none => (Except.error PyErr.valueError, dir)
            | some t0 =>
              if now - t0 > ttl then (Except.ok none, eraseD key dir)
              else
                match lookupField "result" fields with
                | none => (Except.ok none, eraseD key dir)
                | some r => (Except.ok (some r), dir)
          | _ => (Except.error PyErr.typeError, dir)
      | _ => (Except.error PyErr.typeError, dir)

/-- Embedding of `AnalysisCache.set`: size enforcement first (under the
same lock), then the write of the fresh record; an exception escaping the
enforcement aborts the write and leaves the directory as enforcement left
it. -/
def cacheSet (maxSize : Nat) (dir : CacheDir) (now : Nat) (content : String)
    (result : JVal) : Except PyErr Unit × CacheDir :=
  let key := getCacheKey content
  match ensureCacheSize maxSize dir with
  | (Except.error e, dir') => (Except.error e, dir')
  | (Except.ok _, dir') =>
      let j := recordJson now result
      (Except.ok (), setD key ⟨now, serSize j, some j⟩ dir')

/-- Embedding of `AnalysisCache.clear`: unlink every record. -/
def cacheClear (_dir : CacheDir) : CacheDir := []

/-- State of a `URLRateLimiter` instance: the configured per-window limit
(`requests_per_minute`), the window size (`60` in the source constructor;
kept as a field since every method reads `self.window_size`), and the
per-domain timestamp lists (`self.requests`, a dict modelled as an
association list with distinct keys). -/
structure RLState where
  rateLimit : Nat
  windowSize : Int
  requests : List (String × List Int)
deriving DecidableEq, Repr

/-- State produced by `URLRateLimiter.__init__`: empty request map,
window size 60. -/
def initRL (requestsPerMinute : Nat) : RLState :=
  { rateLimit := requestsPerMinute, windowSize := 60, requests := [] }

/-- Embedding of `url.split('/')` for the single-character separator:
Python's `str.split` with no maxsplit, keeping empty segments. -/
def splitChar (sep : Char) : List Char → List (List Char)
  | [] => [[]]
  | c :: cs =>
      if c = sep then [] :: splitChar sep cs
      else
        match splitChar sep cs with
        | [] => [[c]]
        | g :: gs => (c :: g) :: gs

/-- Embedding of `url.split('/')[2]`: the third `/`-delimited segment,
`none` modelling the `IndexError` when it does not exist. -/
def urlDomain (url : String) : Option String :=
  ((splitChar '/' url.data).map List.asString)[2]?

/-- Embedding of `URLRateLimiter._clean_old_requests`: for every domain in
turn, its list is filtered to the timestamps strictly newer than the
cutoff `now - window_size` (`t > cutoff`), and a domain whose list becomes
empty is deleted; the dict order of the survivors is preserved. -/
def cleanOldRequests (w : Int) (now : Int) :
    List (String × List Int) → List (String × List Int)
  | [] => []
  | (k, ts) :: rest =>
      let ts' := ts.filter (fun t => now - w < t)
      if ts'.isEmpty then cleanOldRequests w now rest
      else (k, ts') :: cleanOldRequests w now rest

/-- Embedding of `URLRateLimiter.can_process`.  The domain extraction
happens before the lock: on an `IndexError` the state is untouched.
Under the lock: prune, read the pruned count for the domain, deny without
recording when it reaches the limit, otherwise append `now` and allow. -/
def canProcess (st : RLState) (now : Int) (url : String) :
    Except PyErr Bool × RLState :=
  match urlDomain url with
  | none => (Except.error PyErr.indexError, st)
  | some domain =>
      let reqs := cleanOldRequests st.windowSize now st.requests
      let domainRequests := (lookupD domain reqs).getD []
      if domainRequests.length ≥ st.rateLimit then
        (Except.ok false, { st with requests := reqs })
      else
        (Except.ok true,
          { st with requests := setD domain (domainRequests ++ [now]) reqs })

/-- Sequential execution of a list of `can_process` calls, each given as
(time of the call, url); outputs are collected in order. -/
def runCalls (st : RLState) : List (Int × String) → List (Except PyErr Bool) × RLState
  | [] => ([], st)
  | (t, u) :: rest =>
      let step := canProcess st t u
      let tail := runCalls step.2 rest
      (step.1 :: tail.1, tail.2)

/-- States of a limiter with limit `N` and window `W` reachable from the
freshly constructed state through any sequence of `can_process` calls. -/
inductive RLReach (N : Nat) (W : Int) : RLState → Prop where
  | init : RLReach N W ⟨N, W, []⟩
  | step : ∀ {st : RLState} {now : Int} {url : String} {r : Except PyErr Bool}
      {st' : RLState}, RLReach N W st →
      canProcess st now url = (r, st') → RLReach N W st'

/-- Corrupted record contents on which `get`'s `except (JSONDecodeError,
KeyError)` handler actually fires: bytes that are not valid JSON, a JSON
object without a `cached_at` field, or one whose valid `cached_at` is not
followed by a `result` field. -/
def benignCorrupt (content : Option JVal) : Prop :=
  content = none ∨
  (∃ fs, content = some (JVal.obj fs) ∧ lookupField "cached_at" fs = none) ∨
  (∃ fs s t, content = some (JVal.obj fs) ∧
    lookupField "cached_at" fs = some (JVal.str s) ∧ fromIso s = some t ∧
    lookupField "result" fs = none)

/-!  Generic lemmas about the association-list operations shared by the
directory model and the rate-limiter request map. -/

theorem lookupD_setD_self {α : Type} (d : String) (v : α) (l : List (String × α)) :
    lookupD d (setD d v l) = some v := by
  induction l with
  | nil => simp [setD, lookupD]
  | cons p rest ih =>
      by_cases h : p.1 = d
      · simp [setD, h, lookupD]
      · simpa [setD, h, lookupD] using ih

theorem lookupD_setD_ne {α : Type} {d d' : String} (h : d ≠ d') (v : α)
    (l : List (String × α)) : lookupD d (setD d' v l) = lookupD d l := by
  induction l with
  | nil => simp [setD, lookupD, Ne.symm h]
  | cons p rest ih =>
      by_cases hp : p.1 = d'
      · simp [setD, lookupD, hp, Ne.symm h]
      · simp only [setD, hp, if_false, lookupD, ih]

theorem mem_of_lookupD {α : Type} {d : String} {v : α} :
    ∀ {l : List (String × α)}, lookupD d l = some v → (d, v) ∈ l := by
  intro l
  induction l with
  | nil => intro h; simp [lookupD] at h
  | cons p rest ih =>
      intro h
      by_cases hp : p.1 = d
      · rcases p with ⟨k, w⟩
        simp only at hp
        subst hp
        simp only [lookupD, if_true, Option.some.injEq] at h
        subst h
        exact List.mem_cons_self _ _
      · simp only [lookupD, hp, if_false] at h
        exact List.mem_cons_of_mem _ (ih h)

theorem lookupD_eq_none_iff {α : Type} (d : String) (l : List (String × α)) :
    lookupD d l = none ↔ d ∉ l.map Prod.fst := by
  induction l with
  | nil => simp [lookupD]
  | cons p rest ih =>
      by_cases hp : p.1 = d
      · simp [lookupD, hp]
      · rw [lookupD, if_neg hp, ih]
        simp only [List.map_cons, List.mem_cons, not_or]
        exact ⟨fun h => ⟨fun e => hp e.symm, h⟩, fun h => h.2⟩

theorem eraseD_sublist {α : Type} (d : String) (l : List (String × α)) :
    (eraseD d l).Sublist l := by
  induction l with
  | nil => simp [eraseD]
  | cons p rest ih =>
      by_cases hp : p.1 = d
      · simp only [eraseD, hp, if_true]
        exact List.sublist_cons_self p rest
      · simpa [eraseD, hp] using List.Sublist.cons₂ p ih

theorem lookupD_eraseD_self {α : Type} {d : String} {l : List (String × α)}
    (h : (l.map Prod.fst).Nodup) : lookupD d (eraseD d l) = none := by
  induction l with
  | nil => simp [eraseD, lookupD]
  | cons p rest ih =>
      simp only [List.map_cons, List.nodup_cons] at h
      by_cases hp : p.1 = d
      · rw [eraseD, if_pos hp, lookupD_eq_none_iff]
        exact hp ▸ h.1
      · rw [eraseD, if_neg hp, lookupD, if_neg hp]
        exact ih h.2

theorem mem_setD {α : Type} {p : String × α} {d : String} {v : α} :
    ∀ {l : List (String × α)}, p ∈ setD d v l → p = (d, v) ∨ p ∈ l := by
  intro l
  induction l with
  | nil => intro h; simpa [setD] using h
  | cons q rest ih =>
      intro h
      by_cases hq : q.1 = d
      · simp only [setD, hq, if_true] at h
        rcases List.mem_cons.mp h with h | h
        · exact Or.inl h
        · exact Or.inr (List.mem_cons_of_mem _ h)
      · simp only [setD, hq, if_false] at h
        rcases List.mem_cons.mp h with h | h
        · exact Or.inr (h ▸ List.mem_cons_self _ _)
        · rcases ih h with h | h
          · exact Or.inl h
          · exact Or.inr (List.mem_cons_of_mem _ h)

theorem mem_keys_setD {α : Type} {x d : String} {v : α} :
    ∀ {l : List (String × α)}, x ∈ (setD d v l).map Prod.fst →
      x = d ∨ x ∈ l.map Prod.fst := by
  intro l hx
  rcases List.mem_map.mp hx with ⟨p, hp, hpx⟩
  rcases mem_setD hp with h | h
  · left; rw [← hpx, h]
  · right; exact hpx ▸ List.mem_map_of_mem Prod.fst h

theorem nodup_keys_setD {α : Type} {d : String} {v : α} :
    ∀ {l : List (String × α)}, (l.map Prod.fst).Nodup →
      ((setD d v l).map Prod.fst).Nodup := by
  intro l
  induction l with
  | nil => intro _; simp [setD]
  | cons p rest ih =>
      intro h
      simp only [List.map_cons, List.nodup_cons] at h
      by_cases hp : p.1 = d
      · simp only [setD, hp, if_true, List.map_cons, List.nodup_cons]
        exact ⟨hp ▸ h.1, h.2⟩
      · simp only [setD, hp, if_false, List.map_cons, List.nodup_cons]
        refine ⟨fun hx => ?_, ih h.2⟩
        rcases mem_keys_setD hx with h' | h'
        · exact hp h'
        · exact h.1 h'

/-!  Lemmas about the cache model. -/

theorem fromIso_isoString (t : Nat) : fromIso (isoString t) = some t := by
  simp [fromIso, isoString, List.all_eq_true, List.mem_replicate]

theorem length_insertByMtime (p : String × File) (l : List (String × File)) :
    (insertByMtime p l).length = l.length + 1 := by
  induction l with
  | nil => rfl
  | cons q rest ih =>
      by_cases h : p.2.mtime ≤ q.2.mtime <;> simp [insertByMtime, h, ih]

theorem length_sortByMtime (l : List (String × File)) :
    (sortByMtime l).length = l.length := by
  induction l with
  | nil => rfl
  | cons p rest ih => simp [sortByMtime, length_insertByMtime, ih]

theorem ensureCacheSize_ok {maxSize : Nat} {dir : CacheDir} (hok : DirOk dir)
    {u : Unit} {dir₂ : CacheDir}
    (h : ensureCacheSize maxSize dir = (Except.ok u, dir₂)) :
    dir₂ = dir ∧ totalSize dir ≤ maxSize := by
  unfold ensureCacheSize at h
  by_cases ht : totalSize dir > maxSize
  · exfalso
    rw [if_pos ht] at h
    have hne : dir ≠ [] := by
      intro e
      subst e
      simp [totalSize] at ht
    cases hs : sortByMtime dir with
    | nil =>
        have hlen := length_sortByMtime dir
        rw [hs] at hlen
        exact hne (List.eq_nil_of_length_eq_zero hlen.symm)
    | cons q rest =>
        rcases q with ⟨k, f⟩
        have hstat : statSize k (removeCacheFile k dir) = none := by
          simp [statSize, removeCacheFile, lookupD_eraseD_self hok]
        rw [hs] at h
        simp only [evictLoop, hstat] at h
        simp at h
  · rw [if_neg ht] at h
    simp only [Prod.mk.injEq] at h
    exact ⟨h.2.symm, not_lt.mp ht⟩

theorem cacheSet_ok {maxSize : Nat} {dir : CacheDir} {now : Nat} {c : String}
    {r : JVal} {dir' : CacheDir}
    (h : cacheSet maxSize dir now c r = (Except.ok (), dir')) :
    ∃ dir₂, ensureCacheSize maxSize dir = (Except.ok (), dir₂) ∧
      dir' = setD (getCacheKey c)
        ⟨now, serSize (recordJson now r), some (recordJson now r)⟩ dir₂ := by
  unfold cacheSet at h
  cases he : ensureCacheSize maxSize dir with
  | mk out dir₂ =>
      cases out with
      | error e => rw [he] at h; simp at h
      | ok u =>
          cases u
          rw [he] at h
          exact ⟨dir₂, rfl, (congrArg Prod.snd h).symm⟩

theorem cacheGet_after_set_fresh (ttl : Nat) (dir₂ : CacheDir) (t0 t1 : Nat)
    (c : String) (r : JVal) (h : t1 - t0 ≤ ttl) :
    cacheGet ttl
      (setD (getCacheKey c)
        ⟨t0, serSize (recordJson t0 r), some (recordJson t0 r)⟩ dir₂) t1 c =
      (Except.ok (some r),
        setD (getCacheKey c)
          ⟨t0, serSize (recordJson t0 r), some (recordJson t0 r)⟩ dir₂) := by
  have h1 : lookupField "cached_at"
      [("cached_at", JVal.str (isoString t0)), ("result", r)] =
      some (JVal.str (isoString t0)) := rfl
  have h2 : lookupField "result"
      [("cached_at", JVal.str (isoString t0)), ("result", r)] = some r := rfl
  simp only [cacheGet, lookupD_setD_self, recordJson, h1, h2, fromIso_isoString]
  rw [if_neg (not_lt.mpr h)]

theorem cacheGet_after_set_expired (ttl : Nat) (dir₂ : CacheDir) (t0 t1 : Nat)
    (c : String) (r : JVal) (h : ttl < t1 - t0) :
    cacheGet ttl
      (setD (getCacheKey c)
        ⟨t0, serSize (recordJson t0 r), some (recordJson t0 r)⟩ dir₂) t1 c =
      (Except.ok none,
        eraseD (getCacheKey c)
          (setD (getCacheKey c)
            ⟨t0, serSize (recordJson t0 r), some (recordJson t0 r)⟩ dir₂)) := by
  have h1 : lookupField "cached_at"
      [("cached_at", JVal.str (isoString t0)), ("result", r)] =
      some (JVal.str (isoString t0)) := rfl
  simp only [cacheGet, lookupD_setD_self, recordJson, h1, fromIso_isoString]
  rw [if_pos h]

/-!  Claim C1. -/

/-- C1: for every content `c` and result `r`, a `set(c, r)` that completes
normally, followed by `get(c)` with no intervening operations and no time
advance beyond the TTL (`now' - now ≤ ttl`, which covers the immediate
read `now' = now`), returns exactly the stored result `r`, unchanged, and
leaves the directory as the set left it. -/
theorem claim1_set_then_get_roundtrip (maxSize ttl : Nat) (dir : CacheDir)
    (now now' : Nat) (c : String) (r : JVal) (dir' : CacheDir)
    (hset : cacheSet maxSize dir now c r = (Except.ok (), dir'))
    (hfresh : now' - now ≤ ttl) :
    cacheGet ttl dir' now' c = (Except.ok (some r), dir') := by
  rcases cacheSet_ok hset with ⟨dir₂, _, hdir⟩
  subst hdir
  exact cacheGet_after_set_fresh ttl dir₂ now now' c r hfresh

/-- Witness for C1: a concrete round trip through an initially empty
directory. -/
theorem claim1_witness :
    cacheSet 100 [] 5 "page" (JVal.num 7) =
      (Except.ok (), setD (getCacheKey "page")
        (⟨5, serSize (recordJson 5 (JVal.num 7)),
          some (recordJson 5 (JVal.num 7))⟩ : File) []) ∧
    5 - 5 ≤ 24 ∧
    cacheGet 24 (setD (getCacheKey "page")
        (⟨5, serSize (recordJson 5 (JVal.num 7)),
          some (recordJson 5 (JVal.num 7))⟩ : File) []) 5 "page" =
      (Except.ok (some (JVal.num 7)), setD (getCacheKey "page")
        (⟨5, serSize (recordJson 5 (JVal.num 7)),
          some (recordJson 5 (JVal.num 7))⟩ : File) []) :=
  ⟨rfl, by decide,
    claim1_set_then_get_roundtrip 100 24 [] 5 5 "page" (JVal.num 7) _ rfl (by decide)⟩

/-!  Claim C3. -/

/-- C3: for a record stored by `set` at `t0`, a `get` at a time `t1` later
than `t0` plus the TTL returns not-found and deletes the backing record
(it no longer exists afterwards), while a `get` whose age does not exceed
the TTL returns the stored result and leaves the record in place. -/
theorem claim3_ttl_expiry (maxSize ttl : Nat) (dir : CacheDir) (t0 t1 : Nat)
    (c : String) (r : JVal) (dir' : CacheDir) (hok : DirOk dir)
    (hset : cacheSet maxSize dir t0 c r = (Except.ok (), dir')) :
    (t0 + ttl < t1 →
      cacheGet ttl dir' t1 c = (Except.ok none, eraseD (getCacheKey c) dir') ∧
      lookupD (getCacheKey c) (eraseD (getCacheKey c) dir') = none) ∧
    (t1 - t0 ≤ ttl → cacheGet ttl dir' t1 c = (Except.ok (some r), dir')) := by
  rcases cacheSet_ok hset with ⟨dir₂, hens, hdir⟩
  obtain ⟨hdd, -⟩ := ensureCacheSize_ok hok hens
  subst hdd
  subst hdir
  constructor
  · intro hexp
    refine ⟨cacheGet_after_set_expired ttl dir₂ t0 t1 c r (by omega), ?_⟩
    exact lookupD_eraseD_self (nodup_keys_setD hok)
  · intro hfresh
    exact cacheGet_after_set_fresh ttl dir₂ t0 t1 c r hfresh

/-- Witness for C3: with TTL 10, a record written at time 0 and read at
time 11 is a Miss and the record is gone. -/
theorem claim3_witness :
    DirOk [] ∧
    cacheSet 100 [] 0 "page" JVal.null =
      (Except.ok (), setD (getCacheKey "page")
        (⟨0, serSize (recordJson 0 JVal.null), some (recordJson 0 JVal.null)⟩ : File) []) ∧
    0 + 10 < 11 ∧
    (cacheGet 10 (setD (getCacheKey "page")
        (⟨0, serSize (recordJson 0 JVal.null), some (recordJson 0 JVal.null)⟩ : File) []) 11 "page" =
      (Except.ok none, eraseD (getCacheKey "page")
        (setD (getCacheKey "page")
          (⟨0, serSize (recordJson 0 JVal.null), some (recordJson 0 JVal.null)⟩ : File) [])) ∧
     lookupD (getCacheKey "page") (eraseD (getCacheKey "page")
        (setD (getCacheKey "page")
          (⟨0, serSize (recordJson 0 JVal.null), some (recordJson 0 JVal.null)⟩ : File) [])) = none) := by
  have hok0 : DirOk ([] : CacheDir) := List.nodup_nil
  exact ⟨hok0, rfl, by decide,
    (claim3_ttl_expiry 100 10 [] 0 11 "page" JVal.null _ hok0 rfl).1 (by decide)⟩

/-!  Claim C4. -/

/-- C4 counterexample: the claim asserts that `get` self-heals and never
propagates an error for EVERY corrupted byte content of the record.  A
record replaced by bytes parsing to a JSON object whose `cached_at` value
is a string that is not a valid ISO timestamp makes `get` raise an
uncaught `ValueError` from `datetime.fromisoformat` (only
`json.JSONDecodeError` and `KeyError` are caught), and the record is NOT
deleted: the directory is returned unchanged. -/
theorem claim4_counterexample :
    cacheGet 100 [(getCacheKey "page",
        ⟨0, 10, some (JVal.obj [("cached_at", JVal.str "x"), ("result", JVal.null)])⟩)]
      5 "page" =
    (Except.error PyErr.valueError,
      [(getCacheKey "page",
        ⟨0, 10, some (JVal.obj [("cached_at", JVal.str "x"), ("result", JVal.null)])⟩)]) := rfl

/-- C4 amended: for those corrupted contents that actually hit the
`except (json.JSONDecodeError, KeyError)` handler — bytes that are not
valid JSON, a JSON object lacking `cached_at`, or one whose well-formed
`cached_at` is not followed by a `result` field — `get` returns not-found,
deletes the record (it is gone afterwards), and propagates no error.
Corrupted contents outside this class (a non-object, a non-string or
invalid `cached_at`) instead escape as `TypeError`/`ValueError`. -/
theorem claim4_amended_self_heal (ttl : Nat) (dir : CacheDir) (now : Nat)
    (c : String) (f : File) (hok : DirOk dir)
    (hf : lookupD (getCacheKey c) dir = some f) (hb : benignCorrupt f.content) :
    cacheGet ttl dir now c = (Except.ok none, eraseD (getCacheKey c) dir) ∧
    lookupD (getCacheKey c) (eraseD (getCacheKey c) dir) = none := by
  refine ⟨?_, lookupD_eraseD_self hok⟩
  rcases hb with hb | ⟨fs, hc, hca⟩ | ⟨fs, s, t, hc, hca, hiso, hres⟩
  · simp only [cacheGet, hf, hb]
  · simp only [cacheGet, hf, hc, hca]
  · simp only [cacheGet, hf, hc, hca, hiso, hres]
    by_cases hexp : now - t > ttl
    · rw [if_pos hexp]
    · rw [if_neg hexp]

/-- Witness for C4 amended: a record whose bytes are not valid JSON is
deleted and reported as a Miss. -/
theorem claim4_witness :
    DirOk [(("k" : String), (⟨0, 5, none⟩ : File))] ∧
    (cacheGet 24 [(("k" : String), (⟨0, 5, none⟩ : File))] 3 "k" =
      (Except.ok none,
        eraseD (getCacheKey "k") [(("k" : String), (⟨0, 5, none⟩ : File))]) ∧
     lookupD (getCacheKey "k")
       (eraseD (getCacheKey "k") [(("k" : String), (⟨0, 5, none⟩ : File))]) = none) := by
  have hok : DirOk [(("k" : String), (⟨0, 5, none⟩ : File))] := by simp [DirOk]
  exact ⟨hok, claim4_amended_self_heal 24 _ 3 "k" ⟨0, 5, none⟩ hok rfl (Or.inl rfl)⟩

/-!  Claim C2. -/

/-- C2 evidence, at max_size_bytes = 10 starting from an empty directory.
First conjunct: a single `set` writes a 33-byte record with no eviction
(size enforcement only measures the files already present, never the new
entry), so the very insert that crosses the bound leaves the store above
it.  Second conjunct: the next `set` finds the total over the bound,
deletes the oldest record, and then raises `FileNotFoundError` from
`file.stat()` on the just-deleted path, so eviction aborts after one
removal and the new record is never written. -/
theorem claim2_size_enforcement_evidence :
    (cacheSet 10 [] 0 "a" JVal.null =
      (Except.ok (), [(getCacheKey "a",
        ⟨0, serSize (recordJson 0 JVal.null), some (recordJson 0 JVal.null)⟩)]) ∧
     totalSize [((getCacheKey "a" : String),
        (⟨0, serSize (recordJson 0 JVal.null), some (recordJson 0 JVal.null)⟩ : File))] > 10) ∧
    cacheSet 10 [(getCacheKey "a",
        ⟨0, serSize (recordJson 0 JVal.null), some (recordJson 0 JVal.null)⟩)] 1 "b" JVal.null =
      (Except.error PyErr.fileNotFoundError, []) :=
  ⟨⟨rfl, by decide⟩, rfl⟩

/-!  Lemmas about the rate-limiter model. -/

theorem mem_cleanOldRequests {w now : Int} {p : String × List Int} :
    ∀ {reqs : List (String × List Int)}, p ∈ cleanOldRequests w now reqs →
      (∃ ts₀, (p.1, ts₀) ∈ reqs ∧ p.2 = ts₀.filter (fun t => now - w < t)) ∧
      p.2 ≠ [] := by
  intro reqs
  induction reqs with
  | nil => intro h; simp [cleanOldRequests] at h
  | cons q rest ih =>
      intro h
      rcases q with ⟨k, ts⟩
      simp only [cleanOldRequests] at h
      by_cases he : (ts.filter (fun t => now - w < t)).isEmpty
      · rw [if_pos he] at h
        rcases ih h with ⟨⟨ts₀, hm, hf⟩, hne⟩
        exact ⟨⟨ts₀, List.mem_cons_of_mem _ hm, hf⟩, hne⟩
      · rw [if_neg he] at h
        rcases List.mem_cons.mp h with h | h
        · subst h
          refine ⟨⟨ts, List.mem_cons_self _ _, rfl⟩, ?_⟩
          simpa [List.isEmpty_iff] using he
        · rcases ih h with ⟨⟨ts₀, hm, hf⟩, hne⟩
          exact ⟨⟨ts₀, List.mem_cons_of_mem _ hm, hf⟩, hne⟩

theorem keys_cleanOldRequests_sublist (w now : Int) :
    ∀ reqs : List (String × List Int),
      ((cleanOldRequests w now reqs).map Prod.fst).Sublist (reqs.map Prod.fst)
  | [] => by simp [cleanOldRequests]
  | (k, ts) :: rest => by
      simp only [cleanOldRequests, List.map_cons]
      by_cases he : (ts.filter (fun t => now - w < t)).isEmpty
      · rw [if_pos he]
        exact (keys_cleanOldRequests_sublist w now rest).trans
          (List.sublist_cons_self _ _)
      · rw [if_neg he]
        simpa using (keys_cleanOldRequests_sublist w now rest).cons₂ k

theorem lookupD_clean_none {d : String} {w now : Int}
    {reqs : List (String × List Int)} (h : lookupD d reqs = none) :
    lookupD d (cleanOldRequests w now reqs) = none := by
  rw [lookupD_eq_none_iff] at h ⊢
  exact fun hm => h ((keys_cleanOldRequests_sublist w now reqs).subset hm)

theorem lookupD_clean_some {d : String} {w now : Int} :
    ∀ {reqs : List (String × List Int)}, (reqs.map Prod.fst).Nodup →
      ∀ {ts : List Int}, lookupD d reqs = some ts →
      lookupD d (cleanOldRequests w now reqs) =
        (if (ts.filter (fun t => now - w < t)).isEmpty then none
         else some (ts.filter (fun t => now - w < t))) := by
  intro reqs
  induction reqs with
  | nil => intro _ ts h; simp [lookupD] at h
  | cons q rest ih =>
      intro hnod ts h
      rcases q with ⟨k, ts₁⟩
      simp only [List.map_cons, List.nodup_cons] at hnod
      by_cases hk : k = d
      · subst hk
        rw [lookupD, if_pos rfl] at h
        injection h with h
        subst h
        simp only [cleanOldRequests]
        by_cases he : (ts₁.filter (fun t => now - w < t)).isEmpty
        · rw [if_pos he, if_pos he]
          exact lookupD_clean_none ((lookupD_eq_none_iff _ _).mpr hnod.1)
        · rw [if_neg he, if_neg he, lookupD, if_pos rfl]
      · rw [lookupD, if_neg hk] at h
        simp only [cleanOldRequests]
        by_cases he : (ts₁.filter (fun t => now - w < t)).isEmpty
        · rw [if_pos he]
          exact ih hnod.2 h
        · rw [if_neg he, lookupD, if_neg hk]
          exact ih hnod.2 h

theorem canProcess_err (st : RLState) (now : Int) (url : String)
    (hdom : urlDomain url = none) :
    canProcess st now url = (Except.error PyErr.indexError, st) := by
  simp only [canProcess, hdom]

theorem canProcess_eq (st : RLState) (now : Int) (url : String) (domain : String)
    (hdom : urlDomain url = some domain) :
    canProcess st now url =
      (if ((lookupD domain (cleanOldRequests st.windowSize now st.requests)).getD
            []).length ≥ st.rateLimit then
        (Except.ok false, RLState.mk st.rateLimit st.windowSize
          (cleanOldRequests st.windowSize now st.requests))
      else
        (Except.ok true, RLState.mk st.rateLimit st.windowSize
          (setD domain
            (((lookupD domain
                (cleanOldRequests st.windowSize now st.requests)).getD []) ++ [now])
            (cleanOldRequests st.windowSize now st.requests)))) := by
  simp only [canProcess, hdom]

theorem canProcess_denied {st : RLState} {now : Int} {url : String} {st' : RLState}
    (h : canProcess st now url = (Except.ok false, st')) :
    ∃ domain, urlDomain url = some domain ∧
      st' = RLState.mk st.rateLimit st.windowSize
        (cleanOldRequests st.windowSize now st.requests) ∧
      ((lookupD domain (cleanOldRequests st.windowSize now st.requests)).getD
        []).length ≥ st.rateLimit := by
  cases hdom : urlDomain url with
  | none =>
      rw [canProcess_err st now url hdom] at h
      injection h with h1 h2
      cases h1
  | some dom =>
      rw [canProcess_eq st now url dom hdom] at h
      by_cases hge : ((lookupD dom
          (cleanOldRequests st.windowSize now st.requests)).getD []).length ≥
          st.rateLimit
      · rw [if_pos hge] at h
        injection h with h1 h2
        exact ⟨dom, rfl, h2.symm, hge⟩
      · rw [if_neg hge] at h
        injection h with h1 h2
        simp at h1

theorem canProcess_allowed {st : RLState} {now : Int} {url : String} {st' : RLState}
    (h : canProcess st now url = (Except.ok true, st')) :
    ∃ domain, urlDomain url = some domain ∧
      ¬((lookupD domain (cleanOldRequests st.windowSize now st.requests)).getD
          []).length ≥ st.rateLimit ∧
      st' = RLState.mk st.rateLimit st.windowSize
        (setD domain
          (((lookupD domain
              (cleanOldRequests st.windowSize now st.requests)).getD []) ++ [now])
          (cleanOldRequests st.windowSize now st.requests)) := by
  cases hdom : urlDomain url with
  | none =>
      rw [canProcess_err st now url hdom] at h
      injection h with h1 h2
      cases h1
  | some dom =>
      rw [canProcess_eq st now url dom hdom] at h
      by_cases hge : ((lookupD dom
          (cleanOldRequests st.windowSize now st.requests)).getD []).length ≥
          st.rateLimit
      · rw [if_pos hge] at h
        injection h with h1 h2
        simp at h1
      · rw [if_neg hge] at h
        injection h with h1 h2
        exact ⟨dom, rfl, hge, h2.symm⟩

theorem rlReach_inv {N : Nat} {W : Int} {st : RLState} (h : RLReach N W st) :
    st.rateLimit = N ∧ st.windowSize = W ∧ (st.requests.map Prod.fst).Nodup ∧
    ∀ p ∈ st.requests, p.2.length ≤ N := by
  induction h with
  | init => exact ⟨rfl, rfl, List.nodup_nil, by simp⟩
  | step hr hcp ih =>
      rename_i st now url r st'
      rcases ih with ⟨hN, hW, hnod, hlen⟩
      have hcleanlen : ∀ p ∈ cleanOldRequests st.windowSize now st.requests,
          p.2.length ≤ N := by
        intro p hp
        rcases mem_cleanOldRequests hp with ⟨⟨ts₀, hm, hf⟩, -⟩
        have h1 : p.2.length ≤ ts₀.length := by
          rw [hf]; exact (List.filter_sublist _).length_le
        exact h1.trans (hlen (p.1, ts₀) hm)
      have hcleannod :
          ((cleanOldRequests st.windowSize now st.requests).map Prod.fst).Nodup :=
        hnod.sublist (keys_cleanOldRequests_sublist _ _ _)
      cases hdom : urlDomain url with
      | none =>
          rw [canProcess_err st now url hdom] at hcp
          injection hcp with h1 h2
          subst h2
          exact ⟨hN, hW, hnod, hlen⟩
      | some dom =>
          rw [canProcess_eq st now url dom hdom] at hcp
          by_cases hge : ((lookupD dom
              (cleanOldRequests st.windowSize now st.requests)).getD []).length ≥
              st.rateLimit
          · rw [if_pos hge] at hcp
            injection hcp with h1 h2
            subst h2
            exact ⟨hN, hW, hcleannod, hcleanlen⟩
          · rw [if_neg hge] at hcp
            injection hcp with h1 h2
            subst h2
            refine ⟨hN, hW, nodup_keys_setD hcleannod, ?_⟩
            intro p hp
            rcases mem_setD hp with hpe | hpe
            · subst hpe
              simp only [List.length_append, List.length_cons, List.length_nil]
              have hlt : ((lookupD dom
                  (cleanOldRequests st.windowSize now st.requests)).getD []).length <
                  st.rateLimit := not_le.mp hge
              omega
            · exact hcleanlen p hpe

theorem rlReach_runCalls {N : Nat} {W : Int} {st : RLState}
    (h : RLReach N W st) (calls : List (Int × String)) :
    RLReach N W (runCalls st calls).2 := by
  induction calls generalizing st with
  | nil => exact h
  | cons c rest ih =>
      rcases c with ⟨t, u⟩
      simp only [runCalls]
      exact ih (RLReach.step h rfl)

/-!  Claim C7. -/

/-- C7 counterexample: a denied `can_process` call CAN mutate the shared
state, because the pruning pass runs before the admission decision.  With
limit 2, window 60, state `{a: [50, 60], b: [0]}` and a call for domain
`a` at `t = 70`: the call is denied, yet the post-state differs from the
pre-state (domain `b`, whose only timestamp aged out, was removed). -/
theorem claim7_counterexample :
    (canProcess ⟨2, 60, [("a", [50, 60]), ("b", [0])]⟩ 70 "http://a/x").1 =
      Except.ok false ∧
    (canProcess ⟨2, 60, [("a", [50, 60]), ("b", [0])]⟩ 70 "http://a/x").2 ≠
      ⟨2, 60, [("a", [50, 60]), ("b", [0])]⟩ :=
  ⟨rfl, by decide⟩

/-- C7 amended: a denied `can_process` call never records an attempt: the
post-state is exactly the pre-state with expired timestamps pruned and
emptied domains removed (configuration fields unchanged), and — for a
request map with distinct domain keys — every domain's recorded list
afterwards is a sublist of its list before, so repeated denied polling
consumes no quota.  The post-state may nevertheless differ from the
pre-state, since the pruning itself mutates it. -/
theorem claim7_denied_call_records_nothing (st : RLState) (now : Int)
    (url : String) (st' : RLState)
    (hnod : (st.requests.map Prod.fst).Nodup)
    (h : canProcess st now url = (Except.ok false, st')) :
    st'.rateLimit = st.rateLimit ∧ st'.windowSize = st.windowSize ∧
    st'.requests = cleanOldRequests st.windowSize now st.requests ∧
    ∀ d ts', lookupD d st'.requests = some ts' →
      ∃ ts, lookupD d st.requests = some ts ∧ ts'.Sublist ts := by
  rcases canProcess_denied h with ⟨dom, hdom, hst, hge⟩
  subst hst
  refine ⟨rfl, rfl, rfl, ?_⟩
  intro d ts' hl
  cases hd : lookupD d st.requests with
  | none =>
      rw [lookupD_clean_none hd] at hl
      cases hl
  | some ts =>
      rw [lookupD_clean_some hnod hd] at hl
      by_cases he : (ts.filter (fun t => now - st.windowSize < t)).isEmpty
      · rw [if_pos he] at hl
        cases hl
      · rw [if_neg he] at hl
        injection hl with hl
        exact ⟨ts, rfl, hl ▸ List.filter_sublist _⟩

/-- Witness for C7 amended: the concrete denied call of the
counterexample prunes but records nothing. -/
theorem claim7_witness :
    canProcess ⟨2, 60, [("a", [50, 60]), ("b", [0])]⟩ 70 "http://a/x" =
      (Except.ok false, ⟨2, 60, [("a", [50, 60])]⟩) ∧
    (⟨2, 60, [("a", [50, 60])]⟩ : RLState).requests =
      cleanOldRequests 60 70 [("a", [50, 60]), ("b", [0])] := by
  refine ⟨rfl, ?_⟩
  exact (claim7_denied_call_records_nothing
    ⟨2, 60, [("a", [50, 60]), ("b", [0])]⟩ 70 "http://a/x"
    ⟨2, 60, [("a", [50, 60])]⟩ (by decide) rfl).2.2.1

/-!  Claim C8. -/

/-- C8: after every `can_process` call completed at time `now` (allowed or
denied), every timestamp retained in every domain's list satisfies
`now - timestamp ≤ window_size`, and no domain is mapped to an empty list
(a domain pruned to empty is removed from the state). -/
theorem claim8_window_invariant (st : RLState) (now : Int) (url : String)
    (b : Bool) (st' : RLState) (hw : 0 ≤ st.windowSize)
    (h : canProcess st now url = (Except.ok b, st')) :
    ∀ d ts, lookupD d st'.requests = some ts →
      ts ≠ [] ∧ ∀ t ∈ ts, now - t ≤ st.windowSize := by
  have hclean : ∀ p ∈ cleanOldRequests st.windowSize now st.requests,
      p.2 ≠ [] ∧ ∀ t ∈ p.2, now - t ≤ st.windowSize := by
    intro p hp
    rcases mem_cleanOldRequests hp with ⟨⟨ts₀, -, hf⟩, hne⟩
    refine ⟨hne, ?_⟩
    intro t ht
    rw [hf] at ht
    have hb := (List.mem_filter.mp ht).2
    have : now - st.windowSize < t := by simpa using hb
    omega
  cases b with
  | false =>
      rcases canProcess_denied h with ⟨dom, -, hst, -⟩
      subst hst
      intro d ts hl
      exact hclean _ (mem_of_lookupD hl)
  | true =>
      rcases canProcess_allowed h with ⟨dom, -, -, hst⟩
      subst hst
      intro d ts hl
      rcases mem_setD (mem_of_lookupD hl) with he | he
      · injection he with he1 he2
        subst he2
        constructor
        · simp
        · intro t ht
          rcases List.mem_append.mp ht with ht | ht
          · cases hlk : lookupD dom
                (cleanOldRequests st.windowSize now st.requests) with
            | none => rw [hlk] at ht; simp at ht
            | some l =>
                rw [hlk] at ht
                simp only [Option.getD_some] at ht
                exact (hclean _ (mem_of_lookupD hlk)).2 t ht
          · have : t = now := by simpa using ht
            subst this
            omega
      · exact hclean _ he

/-- Witness for C8: a concrete allowed call at time 5 with window 60. -/
theorem claim8_witness :
    ([5] : List Int) ≠ [] ∧ ∀ t ∈ ([5] : List Int), (5 : Int) - t ≤ 60 :=
  claim8_window_invariant ⟨1, 60, []⟩ 5 "http://a/x" true ⟨1, 60, [("a", [5])]⟩
    (by decide) rfl "a" [5] rfl

/-!  Claim C10. -/

theorem splitChar_ne_nil (sep : Char) : ∀ l : List Char, splitChar sep l ≠ []
  | [] => by simp [splitChar]
  | c :: cs => by
      by_cases hc : c = sep
      · simp [splitChar, hc]
      · rw [splitChar, if_neg hc]
        cases h : splitChar sep cs <;> simp

theorem length_splitChar (sep : Char) :
    ∀ l : List Char, (splitChar sep l).length = l.count sep + 1
  | [] => rfl
  | c :: cs => by
      have ih := length_splitChar sep cs
      by_cases hc : c = sep
      · subst hc
        rw [splitChar, if_pos rfl]
        simp only [List.length_cons, ih, List.count_cons]
        simp
      · rw [splitChar, if_neg hc]
        cases h : splitChar sep cs with
        | nil => exact absurd h (splitChar_ne_nil sep cs)
        | cons g gs =>
            rw [h] at ih
            simp only [List.length_cons] at ih ⊢
            rw [List.count_cons]
            simp only [beq_iff_eq, hc, if_false]
            omega

/-- C10: for every url string containing fewer than two `/` characters
(hence with no third `/`-delimited segment), `can_process` raises an
`IndexError` from `url.split('/')[2]` instead of returning a boolean; the
raise happens before the lock is taken or any state is touched, so the
rate-limiter state is unchanged. -/
theorem claim10_malformed_url_raises (st : RLState) (now : Int) (url : String)
    (h : url.data.count '/' < 2) :
    canProcess st now url = (Except.error PyErr.indexError, st) := by
  have hd : urlDomain url = none := by
    unfold urlDomain
    apply List.getElem?_eq_none
    rw [List.length_map, length_splitChar]
    omega
  exact canProcess_err st now url hd

/-- Witness for C10: the slash-free url string of the claim. -/
theorem claim10_witness :
    ("example.com".data.count '/' < 2) ∧
    canProcess ⟨2, 60, []⟩ 0 "example.com" =
      (Except.error PyErr.indexError, ⟨2, 60, []⟩) :=
  ⟨by decide, claim10_malformed_url_raises ⟨2, 60, []⟩ 0 "example.com" (by decide)⟩

/-!  Claim C5. -/

theorem map_range_saturated (n k N : Nat) (h : N ≤ k) :
    (List.range n).map
      (fun i => (Except.ok (decide (k + i < N)) : Except PyErr Bool)) =
      List.replicate n (Except.ok false) := by
  induction n with
  | zero => rfl
  | succ n ih =>
      rw [List.range_succ, List.map_append, ih, List.replicate_succ']
      simp only [List.map_cons, List.map_nil]
      have : ¬(k + n < N) := by omega
      rw [decide_eq_false this]

theorem map_range_all_true (n : Nat) :
    (List.range n).map
      (fun i => (Except.ok (decide (i < n)) : Except PyErr Bool)) =
      List.replicate n (Except.ok true) := by
  rw [List.eq_replicate_iff]
  constructor
  · simp
  · intro b hb
    rcases List.mem_map.mp hb with ⟨i, hi, hb⟩
    rw [← hb, decide_eq_true (List.mem_range.mp hi)]

theorem map_range_lt (m : Nat) :
    (List.range (m + 1)).map
      (fun i => (Except.ok (decide (i < m)) : Except PyErr Bool)) =
      List.replicate m (Except.ok true) ++ [Except.ok false] := by
  rw [List.range_succ, List.map_append]
  have h1 : (List.range m).map
      (fun i => (Except.ok (decide (i < m)) : Except PyErr Bool)) =
      List.replicate m (Except.ok true) := by
    rw [List.eq_replicate_iff]
    constructor
    · simp
    · intro b hb
      rcases List.mem_map.mp hb with ⟨i, hi, hb⟩
      rw [← hb, decide_eq_true (List.mem_range.mp hi)]
  rw [h1]
  simp

theorem runCalls_single_domain (N : Nat) (W lo hi : Int) (d : String) :
    ∀ (calls : List (Int × String)) (ts : List Int),
      ts ≠ [] →
      (∀ t ∈ ts, lo ≤ t) →
      (∀ p ∈ calls, urlDomain p.2 = some d ∧ lo ≤ p.1 ∧ p.1 ≤ hi) →
      hi < lo + W →
      (runCalls (RLState.mk N W [(d, ts)]) calls).1 =
        (List.range calls.length).map
          (fun i => Except.ok (decide (ts.length + i < N))) := by
  intro calls
  induction calls with
  | nil => intro ts _ _ _ _; rfl
  | cons c rest ih =>
      intro ts hne hlo hcalls hwin
      rcases c with ⟨t, u⟩
      have hu := hcalls (t, u) (List.mem_cons_self _ _)
      have hrest : ∀ p ∈ rest, urlDomain p.2 = some d ∧ lo ≤ p.1 ∧ p.1 ≤ hi :=
        fun p hp => hcalls p (List.mem_cons_of_mem _ hp)
      have hfilter : ts.filter (fun x => t - W < x) = ts := by
        apply List.filter_eq_self.mpr
        intro x hx
        have h1 : lo ≤ x := hlo x hx
        have h2 : t ≤ hi := hu.2.2
        simp only [decide_eq_true_eq]
        omega
      have hclean : cleanOldRequests W t [(d, ts)] = [(d, ts)] := by
        simp only [cleanOldRequests, hfilter]
        rw [if_neg (by simpa [List.isEmpty_iff] using hne)]
      have hlook : lookupD d [(d, ts)] = some ts := by simp [lookupD]
      simp only [runCalls]
      rw [canProcess_eq _ _ _ d hu.1]
      simp only [hclean, hlook, Option.getD_some]
      by_cases hge : ts.length ≥ N
      · rw [if_pos hge]
        rw [ih ts hne hlo hrest hwin]
        simp only [List.length_cons]
        rw [List.range_succ_eq_map, List.map_cons, List.map_map]
        rw [decide_eq_false (by omega : ¬(ts.length + 0 < N))]
        rw [map_range_saturated _ _ _ hge]
        refine congrArg (Except.ok false :: ·) ?_
        have h2 : ∀ i ∈ List.range rest.length,
            ((fun i => (Except.ok (decide (ts.length + i < N)) :
                Except PyErr Bool)) ∘ Nat.succ) i =
            (fun i => (Except.ok (decide (ts.length + 1 + i < N)) :
                Except PyErr Bool)) i := by
          intro i _
          simp only [Function.comp_apply]
          congr 1
          rw [decide_eq_decide]
          omega
        rw [List.map_congr_left h2,
          map_range_saturated _ _ _ (by omega : N ≤ ts.length + 1)]
      · rw [if_neg hge]
        have hsetD : setD d (ts ++ [t]) [(d, ts)] = [(d, ts ++ [t])] := by
          simp [setD]
        rw [hsetD]
        have hlo' : ∀ x ∈ ts ++ [t], lo ≤ x := by
          intro x hx
          rcases List.mem_append.mp hx with hx | hx
          · exact hlo x hx
          · have : x = t := by simpa using hx
            subst this
            exact hu.2.1
        rw [ih (ts ++ [t]) (by simp) hlo' hrest hwin]
        simp only [List.length_cons, List.length_append, List.length_nil]
        rw [List.range_succ_eq_map, List.map_cons, List.map_map]
        rw [decide_eq_true (by omega : ts.length + 0 < N)]
        refine congrArg (Except.ok true :: ·) ?_
        apply List.map_congr_left
        intro i _
        simp only [Function.comp_apply]
        congr 1
        rw [decide_eq_decide]
        omega

/-- C5: with limit N and window W, the first N `can_process` calls for one
domain made on a fresh limiter within one window W (all call times inside
an interval [lo, hi] with hi < lo + W) all return true and the (N+1)-th
call within the same window returns false; in particular, with limit 2
and window 60, calls for `http://a.example/x` at t = 0, 1, 2 yield
true, true, false, and a fourth call at t = 61 yields true. -/
theorem claim5_rate_limit_admits :
    (∀ (N : Nat) (W lo hi : Int) (d : String) (calls : List (Int × String)),
      calls.length = N + 1 →
      (∀ p ∈ calls, urlDomain p.2 = some d ∧ lo ≤ p.1 ∧ p.1 ≤ hi) →
      hi < lo + W →
      (runCalls (RLState.mk N W []) calls).1 =
        List.replicate N (Except.ok true) ++ [Except.ok false]) ∧
    (runCalls (initRL 2) [(0, "http://a.example/x"), (1, "http://a.example/x"),
        (2, "http://a.example/x"), (61, "http://a.example/x")]).1 =
      [Except.ok true, Except.ok true, Except.ok false, Except.ok true] := by
  constructor
  · intro N W lo hi d calls hlen hcalls hwin
    cases calls with
    | nil => simp at hlen
    | cons c rest =>
        rcases c with ⟨t, u⟩
        have hu := hcalls (t, u) (List.mem_cons_self _ _)
        have hrest : ∀ p ∈ rest, urlDomain p.2 = some d ∧ lo ≤ p.1 ∧ p.1 ≤ hi :=
          fun p hp => hcalls p (List.mem_cons_of_mem _ hp)
        have hrlen : rest.length = N := by simpa using hlen
        simp only [runCalls]
        rw [canProcess_eq _ _ _ d hu.1]
        simp only [cleanOldRequests, lookupD, Option.getD_none, List.length_nil,
          List.nil_append]
        split
        · rename_i hcond
          have hN0 : N = 0 := by
            simp only [ge_iff_le] at hcond
            omega
          subst hN0
          have hr0 : rest = [] := List.length_eq_zero.mp hrlen
          subst hr0
          rfl
        · rename_i hcond
          have hN1 : 1 ≤ N := by
            simp only [ge_iff_le, not_le] at hcond
            omega
          have hset : setD d [t] ([] : List (String × List Int)) = [(d, [t])] := by
            simp [setD]
          rw [hset]
          have hlo1 : ∀ x ∈ ([t] : List Int), lo ≤ x := by
            intro x hx
            have : x = t := by simpa using hx
            subst this
            exact hu.2.1
          rw [runCalls_single_domain N W lo hi d rest [t] (by simp) hlo1 hrest hwin]
          rw [hrlen]
          obtain ⟨m, rfl⟩ : ∃ m, N = m + 1 := ⟨N - 1, by omega⟩
          have hmap : (List.range (m + 1)).map
              (fun i => (Except.ok (decide (([t] : List Int).length + i < m + 1)) :
                Except PyErr Bool)) =
              (List.range (m + 1)).map
              (fun i => (Except.ok (decide (i < m)) : Except PyErr Bool)) := by
            apply List.map_congr_left
            intro i _
            congr 1
            rw [decide_eq_decide]
            simp only [List.length_cons, List.length_nil]
            omega
          rw [hmap, map_range_lt, List.replicate_succ]
          rfl
  · rfl

/-- Witness for C5: the general bound applied at limit 2, window 60, with
the three in-window calls of the claim scenario. -/
theorem claim5_witness :
    (runCalls (RLState.mk 2 60 []) [(0, "http://a.example/x"),
        (1, "http://a.example/x"), (2, "http://a.example/x")]).1 =
      List.replicate 2 (Except.ok true) ++ [Except.ok false] :=
  claim5_rate_limit_admits.1 2 60 0 2 "a.example"
    [(0, "http://a.example/x"), (1, "http://a.example/x"), (2, "http://a.example/x")]
    rfl (by decide) (by decide)

/-!  Claim C6. -/

theorem length_filter_lt {α : Type} (p : α → Bool) :
    ∀ (l : List α) (a : α), a ∈ l → p a = false →
      (l.filter p).length < l.length
  | [], a, ha, _ => absurd ha (List.not_mem_nil a)
  | x :: xs, a, ha, hpa => by
      rcases List.mem_cons.mp ha with h | h
      · subst h
        simp only [List.filter_cons, hpa, if_false, Bool.false_eq_true,
          List.length_cons]
        exact Nat.lt_succ_of_le (List.length_filter_le p xs)
      · rw [List.filter_cons]
        by_cases hx : p x = true
        · simp only [hx, if_true, List.length_cons]
          exact Nat.succ_lt_succ (length_filter_lt p xs a h hpa)
        · simp only [hx, if_false]
          exact Nat.lt_succ_of_lt (length_filter_lt p xs a h hpa)

theorem lookupD_canProcess_other {d : String} {st : RLState} {now : Int}
    {url : String} {r : Except PyErr Bool} {st' : RLState}
    (hnod : (st.requests.map Prod.fst).Nodup)
    (hdom : urlDomain url ≠ some d)
    (h : canProcess st now url = (r, st')) :
    (lookupD d st.requests = none → lookupD d st'.requests = none) ∧
    (∀ ts, lookupD d st.requests = some ts →
      lookupD d st'.requests = none ∨
      ∃ ts', lookupD d st'.requests = some ts' ∧ ts'.Sublist ts) := by
  cases hu : urlDomain url with
  | none =>
      rw [canProcess_err _ _ _ hu] at h
      injection h with h1 h2
      subst h2
      exact ⟨fun hn => hn, fun ts hts => Or.inr ⟨ts, hts, List.Sublist.refl ts⟩⟩
  | some dom =>
      have hne : d ≠ dom := fun e => hdom (by rw [hu, e])
      rw [canProcess_eq _ _ _ dom hu] at h
      by_cases hge : ((lookupD dom
          (cleanOldRequests st.windowSize now st.requests)).getD []).length ≥
          st.rateLimit
      · rw [if_pos hge] at h
        injection h with h1 h2
        subst h2
        constructor
        · intro hn
          exact lookupD_clean_none hn
        · intro ts hts
          rw [lookupD_clean_some hnod hts]
          by_cases he : (ts.filter (fun t => now - st.windowSize < t)).isEmpty
          · rw [if_pos he]
            exact Or.inl rfl
          · rw [if_neg he]
            exact Or.inr ⟨_, rfl, List.filter_sublist _⟩
      · rw [if_neg hge] at h
        injection h with h1 h2
        subst h2
        have hskip : lookupD d (setD dom
            (((lookupD dom
                (cleanOldRequests st.windowSize now st.requests)).getD []) ++ [now])
            (cleanOldRequests st.windowSize now st.requests)) =
            lookupD d (cleanOldRequests st.windowSize now st.requests) :=
          lookupD_setD_ne hne _ _
        constructor
        · intro hn
          exact hskip.trans (lookupD_clean_none hn)
        · intro ts hts
          rw [hskip, lookupD_clean_some hnod hts]
          by_cases he : (ts.filter (fun t => now - st.windowSize < t)).isEmpty
          · rw [if_pos he]
            exact Or.inl rfl
          · rw [if_neg he]
            exact Or.inr ⟨_, rfl, List.filter_sublist _⟩

theorem lookupD_runCalls_other {N : Nat} {W : Int} {d : String} :
    ∀ (calls : List (Int × String)) {st : RLState},
      RLReach N W st →
      (∀ p ∈ calls, urlDomain p.2 ≠ some d) →
      ((lookupD d st.requests = none →
          lookupD d ((runCalls st calls).2).requests = none) ∧
       (∀ ts, lookupD d st.requests = some ts →
          lookupD d ((runCalls st calls).2).requests = none ∨
          ∃ ts', lookupD d ((runCalls st calls).2).requests = some ts' ∧
            ts'.Sublist ts)) := by
  intro calls
  induction calls with
  | nil =>
      intro st _ _
      exact ⟨fun h => h, fun ts hts => Or.inr ⟨ts, hts, List.Sublist.refl _⟩⟩
  | cons c rest ih =>
      intro st hr hc
      rcases c with ⟨t, u⟩
      have hnod := (rlReach_inv hr).2.2.1
      have hstep := lookupD_canProcess_other hnod
        (hc (t, u) (List.mem_cons_self _ _)) (rfl : canProcess st t u = _)
      have hr' : RLReach N W (canProcess st t u).2 := RLReach.step hr rfl
      have ihr := ih hr' (fun p hp => hc p (List.mem_cons_of_mem _ hp))
      simp only [runCalls]
      constructor
      · intro hn
        exact ihr.1 (hstep.1 hn)
      · intro ts hts
        rcases hstep.2 ts hts with hn | ⟨ts₁, hts₁, hsub₁⟩
        · exact Or.inl (ihr.1 hn)
        · rcases ihr.2 ts₁ hts₁ with hn | ⟨ts₂, hts₂, hsub₂⟩
          · exact Or.inl hn
          · exact Or.inr ⟨ts₂, hts₂, hsub₂.trans hsub₁⟩

/-- C6: for a domain `d` whose `can_process` call was denied (leaving list
`ts` with oldest recorded timestamp `m`), a later call for that domain at
any time `now₁ ≥ m + window_size` — with no intervening calls for that
domain, though calls for other domains may intervene — returns true; and
conversely (with no intervening calls at all) a call at `now₁ < m +
window_size` is still denied: eligibility is recovered exactly when the
oldest timestamp ages out of the sliding window, not at a fixed-interval
boundary.  Stated over states reachable from a fresh limiter. -/
theorem claim6_sliding_window_recovery (N : Nat) (W : Int) (st st₁ : RLState)
    (now₀ now₁ : Int) (url url' d : String) (ts : List Int) (m : Int)
    (inter : List (Int × String))
    (hreach : RLReach N W st)
    (hdom : urlDomain url = some d)
    (hdeny : canProcess st now₀ url = (Except.ok false, st₁))
    (hts : lookupD d st₁.requests = some ts)
    (hmem : m ∈ ts) (hmin : ∀ x ∈ ts, m ≤ x)
    (hinter : ∀ p ∈ inter, urlDomain p.2 ≠ some d)
    (hurl' : urlDomain url' = some d) :
    (m + W ≤ now₁ →
      (canProcess ((runCalls st₁ inter).2) now₁ url').1 = Except.ok true) ∧
    (inter = [] → now₁ < m + W →
      (canProcess st₁ now₁ url').1 = Except.ok false) := by
  have hr₁ : RLReach N W st₁ := RLReach.step hreach hdeny
  obtain ⟨hN₁, hW₁, hnod₁, hlen₁⟩ := rlReach_inv hr₁
  have htsN : ts.length ≤ N := hlen₁ (d, ts) (mem_of_lookupD hts)
  have hN1 : 1 ≤ N := by
    have h1 : 0 < ts.length := List.length_pos.mpr (List.ne_nil_of_mem hmem)
    omega
  constructor
  · intro hrec
    have hr₂ : RLReach N W ((runCalls st₁ inter).2) := rlReach_runCalls hr₁ inter
    obtain ⟨hN₂, hW₂, hnod₂, hlen₂⟩ := rlReach_inv hr₂
    have hlk := (lookupD_runCalls_other inter hr₁ hinter).2 ts hts
    have hcount : ((lookupD d (cleanOldRequests
        ((runCalls st₁ inter).2).windowSize now₁
        ((runCalls st₁ inter).2).requests)).getD []).length < N := by
      rw [hW₂]
      rcases hlk with hn | ⟨ts', hts', hsub⟩
      · rw [lookupD_clean_none hn]
        simpa using hN1
      · rw [lookupD_clean_some hnod₂ hts']
        have hflt : (ts.filter (fun t => now₁ - W < t)).length < ts.length :=
          length_filter_lt _ ts m hmem
            (by simp only [decide_eq_false_iff_not, not_lt]; omega)
        have hle : (ts'.filter (fun t => now₁ - W < t)).length ≤
            (ts.filter (fun t => now₁ - W < t)).length :=
          (hsub.filter _).length_le
        by_cases he : (ts'.filter (fun t => now₁ - W < t)).isEmpty
        · rw [if_pos he]
          simpa using hN1
        · rw [if_neg he]
          simp only [Option.getD_some]
          omega
    rw [canProcess_eq _ _ _ d hurl']
    rw [if_neg (by rw [hN₂]; exact not_le.mpr hcount)]
  · intro hnil hlt
    subst hnil
    rcases canProcess_denied hdeny with ⟨dom₀, hdom₀, hst₁, hge₀⟩
    have hdd : dom₀ = d := by
      have h' := hdom₀.symm.trans hdom
      injection h'
    subst hdd
    obtain ⟨hN₀, -, -, -⟩ := rlReach_inv hreach
    have hcnt : ts.length ≥ N := by
      have h1 := hge₀
      have h2 : lookupD dom₀
          (cleanOldRequests st.windowSize now₀ st.requests) = some ts := by
        have h3 := hts
        rw [hst₁] at h3
        exact h3
      rw [h2] at h1
      simp only [Option.getD_some] at h1
      rw [hN₀] at h1
      exact h1
    have htseq : ts.length = N := le_antisymm htsN hcnt
    rw [canProcess_eq _ _ _ dom₀ hurl']
    have hfil : ts.filter (fun t => now₁ - st₁.windowSize < t) = ts := by
      apply List.filter_eq_self.mpr
      intro x hx
      have hx1 := hmin x hx
      rw [hW₁]
      simp only [decide_eq_true_eq]
      omega
    have hlkc : lookupD dom₀
        (cleanOldRequests st₁.windowSize now₁ st₁.requests) = some ts := by
      rw [lookupD_clean_some hnod₁ hts, hfil]
      rw [if_neg (by simpa [List.isEmpty_iff] using List.ne_nil_of_mem hmem)]
    rw [if_pos (by rw [hlkc, hN₁]; simp only [Option.getD_some]; omega)]

/-- Witness for C6: limit 1, window 60; one allowed call at t = 0 (so the
state is reachable), a denied call at t = 10, no intervening calls, and a
retry at t = 60 = oldest + window, which is allowed again. -/
theorem claim6_witness :
    (canProcess ((runCalls (⟨1, 60, [("a", [0])]⟩ : RLState) []).2) 60
      "http://a/y").1 = Except.ok true :=
  (claim6_sliding_window_recovery 1 60 ⟨1, 60, [("a", [0])]⟩
    ⟨1, 60, [("a", [0])]⟩ 10 60 "http://a/x" "http://a/y" "a" [0] 0 []
    (RLReach.step RLReach.init
      (rfl : canProcess ⟨1, 60, []⟩ 0 "http://a/x" =
        (Except.ok true, ⟨1, 60, [("a", [0])]⟩)))
    rfl rfl rfl (by decide) (by decide) (by simp) rfl).1 (by decide)
